import Mathlib

set_option autoImplicit false

/-!
Shallow embedding of the task-execution engine in src/server_client.cpp and of the
matrix-vector benchmark in src/matrix_vector.cpp, with proofs of the specified
properties. The engine state collects the file-scope globals of the C++ file
(pending queue, registry, id counter, worker lifecycle); the worker loop is
modelled one loop iteration at a time.
-/

namespace ServerClient

/-- Closed universe of dynamic types that a std::any result slot may hold. -/
inductive TypeTag where
  | tInt
  | tBool
  | tString
  deriving DecidableEq

/-- The Lean type denoted by a tag. -/
@[reducible] def TypeTag.interp : TypeTag → Type
  | .tInt => Int
  | .tBool => Bool
  | .tString => String

/-- A type-erased value: models a non-empty std::any together with its dynamic type. -/
structure DynVal where
  tag : TypeTag
  val : tag.interp

/-- Models std::any_cast to the type denoted by τ: succeeds exactly when the dynamic
tag of the stored value matches τ, and fails (bad_any_cast) otherwise. -/
def anyCast (τ : TypeTag) (v : DynVal) : Option τ.interp :=
  if h : v.tag = τ then some (h ▸ v.val) else none

/-- Outcome of invoking the captured callable on its captured arguments: either a
produced value, or a raised C++ exception carrying a message. -/
inductive CallResult where
  | ok : DynVal → CallResult
  | exn : String → CallResult

/-- State of a TaskWrapper after construction. The captured callable applied to the
by-value captured arguments is the thunk compute (construction never runs it);
result models the std::any result slot (none = still empty); ready models the
readiness flag guarded by the private mutex and condition variable. -/
structure TaskWrapper where
  compute : Unit → CallResult
  result : Option DynVal := none
  ready : Bool := false

/-- TaskWrapper::execute: evaluates std::apply(func, args). On success it stores the
value into the result slot, sets ready and notifies the private condition. There is
no try/catch: if the callable throws, nothing is stored, ready stays false, and the
exception propagates to the caller, which is the worker loop. -/
def TaskWrapper.execute (t : TaskWrapper) : Except String TaskWrapper :=
  match t.compute () with
  | .ok v => .ok { t with result := some v, ready := true }
  | .exn e => .error e

/-- TaskWrapper::get_result: waits on the private condition until ready, then returns
the std::any result slot. Outer none = the wait never returns because the task never
becomes ready; the inner option is the possibly empty std::any. -/
def TaskWrapper.get_result (t : TaskWrapper) : Option (Option DynVal) :=
  if t.ready then some t.result else none

/-- The registry std::unordered_map<int, std::unique_ptr<TaskWrapperBase>> as an
association list: lookup of the first binding of a key. -/
def lookupAssoc : List (Int × TaskWrapper) → Int → Option TaskWrapper
  | [], _ => none
  | (k, t) :: rest, id => if k = id then some t else lookupAssoc rest id

/-- Map insertion through operator[]: replaces an existing binding of the key,
otherwise appends a new binding. -/
def insertAssoc : List (Int × TaskWrapper) → Int → TaskWrapper → List (Int × TaskWrapper)
  | [], id, t => [(id, t)]
  | (k, u) :: rest, id, t =>
    if k = id then (id, t) :: rest else (k, u) :: insertAssoc rest id t

/-- Map erase of a key. -/
def eraseAssoc (rs : List (Int × TaskWrapper)) (id : Int) : List (Int × TaskWrapper) :=
  rs.filter (fun p => p.1 != id)

/-- Two's complement value of a 32-bit machine int whose representation is n mod 2^32.
nextid is a std::atomic<int>, and atomic fetch_add wraps modulo 2^32. -/
def toSigned32 (n : Nat) : Int :=
  if n % 2 ^ 32 < 2 ^ 31 then ((n % 2 ^ 32 : Nat) : Int)
  else ((n % 2 ^ 32 : Nat) : Int) - 2 ^ 32

/-- The TaskId returned by the c-th evaluation of nextid++ (counting from 0). -/
def taskIdOf (count : Nat) : Int :=
  toSigned32 count

/-- The file-scope globals of server_client.cpp: the pending queue tasks (list head =
queue front), the registry results, the number count of ids already allocated by the
atomic counter nextid (the machine int it stores represents taskIdOf count), plus the
lifecycle state of the Server object: running models server_t.joinable() and
stopRequested models the stop token state of the worker thread currently owned. -/
structure EngineState where
  tasks : List Int
  results : List (Int × TaskWrapper)
  count : Nat
  stopRequested : Bool
  running : Bool

/-- The state at program start: empty queue, empty registry, nextid = 0, no worker. -/
def initState : EngineState :=
  { tasks := [], results := [], count := 0, stopRequested := false, running := false }

/-- add_task: task_id = nextid++; then, under the shared lock, construct the wrapper
(capturing callable and arguments by value, as the thunk compute), store it in
results[task_id], push task_id onto the queue; notify the worker; return task_id. -/
def add_task (compute : Unit → CallResult) (s : EngineState) : Int × EngineState :=
  let task_id := taskIdOf s.count
  (task_id,
    { s with
      count := s.count + 1
      results := insertAssoc s.results task_id { compute := compute }
      tasks := s.tasks ++ [task_id] })

/-- Possible outcomes of request_result<T>. ok carries the returned value;
taskNotFound models throwing runtime_error when the id is absent from results;
typeMismatch models the std::bad_any_cast thrown by std::any_cast (thrown before the
erase is reached); blocks models a get_result call that never returns because the
task never becomes ready. -/
inductive ReqResult (τ : TypeTag) where
  | ok : τ.interp → ReqResult τ
  | taskNotFound : ReqResult τ
  | typeMismatch : ReqResult τ
  | blocks : ReqResult τ

/-- request_result<T>: find task_id in results, throwing TaskNotFound at once if it is
absent; otherwise block in get_result until the task is ready; any_cast the stored
any to T, which throws bad_any_cast on a dynamic type mismatch; only then, under the
shared lock, move the wrapper out, erase the entry, and return the value. -/
def request_result (τ : TypeTag) (task_id : Int) (s : EngineState) :
    ReqResult τ × EngineState :=
  match lookupAssoc s.results task_id with
  | none => (.taskNotFound, s)
  | some t =>
    match t.get_result with
    | none => (.blocks, s)
    | some none => (.typeMismatch, s)
    | some (some v) =>
      match anyCast τ v with
      | none => (.typeMismatch, s)
      | some x => (.ok x, { s with results := eraseAssoc s.results task_id })

/-- Observation of one iteration of the server_thread loop, taken at the loop head. -/
inductive StepOut where
  | stopped : EngineState → StepOut
  | idle : EngineState → StepOut
  | ran : Int → EngineState → StepOut
  | crashed : String → EngineState → StepOut

/-- One iteration of server_thread: if stop was requested the loop exits (stopped);
with an empty queue and no stop request the thread blocks in cond_var.wait (idle);
otherwise it pops the front id, unlocks, looks the id up in results and, when found,
calls execute on the wrapper in place. A missing id is a no-op iteration. An
exception escaping execute escapes the loop: the worker thread dies (crashed). -/
def worker_step (s : EngineState) : StepOut :=
  if s.stopRequested then .stopped s
  else
    match s.tasks with
    | [] => .idle s
    | task_id :: rest =>
      let s1 := { s with tasks := rest }
      match lookupAssoc s1.results task_id with
      | none => .ran task_id s1
      | some t =>
        match t.execute with
        | .ok u => .ran task_id { s1 with results := insertAssoc s1.results task_id u }
        | .error e => .crashed e s1

/-- Final observation of running the worker loop: blocked waiting for work (idle),
exited after a stop request (stopped), died on an escaped exception (crashed), or
still looping when the iteration budget ran out. -/
inductive RunOut where
  | idle : EngineState → RunOut
  | stopped : EngineState → RunOut
  | crashed : String → EngineState → RunOut
  | outOfFuel : EngineState → RunOut

/-- Run the worker loop for at most fuel iterations, recording the dequeued ids in
dequeue order. -/
def worker_run : Nat → EngineState → List Int × RunOut
  | 0, s => ([], .outOfFuel s)
  | fuel + 1, s =>
    match worker_step s with
    | .stopped s1 => ([], .stopped s1)
    | .idle s1 => ([], .idle s1)
    | .crashed e s1 => ([], .crashed e s1)
    | .ran id s1 =>
      let p := worker_run fuel s1
      (id :: p.1, p.2)

/-- Lifecycle errors named by the specification. -/
inductive LifecycleError where
  | alreadyRunning
  deriving DecidableEq

/-- Server::start: server_t = std::jthread(server_thread). The move assignment first
requests stop on and joins any thread already associated with server_t, then adopts
a fresh worker with a fresh, unset stop token. No error is ever reported. -/
def start (s : EngineState) : EngineState × Option LifecycleError :=
  ({ s with running := true, stopRequested := false }, none)

/-- Server::stop: if server_t is joinable, request_stop on its token and notify_all;
the thread is not joined here and stays joinable, so a repeated call finds the token
already set and changes nothing. -/
def stop (s : EngineState) : EngineState :=
  if s.running then { s with stopRequested := true } else s

/-- Submit a list of callables in order from a single thread; returns the ids in
submission order. -/
def submitAll : List (Unit → CallResult) → EngineState → List Int × EngineState
  | [], s => ([], s)
  | f :: fs, s =>
    let p := add_task f s
    let q := submitAll fs p.2
    (p.1 :: q.1, q.2)

/-- Every id sitting in the pending queue resolves, through the registry, to a task
whose callable returns normally. -/
def QueueOk (s : EngineState) : Prop :=
  ∀ id ∈ s.tasks, ∃ t, lookupAssoc s.results id = some t ∧
    ∃ v, t.compute () = CallResult.ok v

/-- Effect on the registry of the worker dequeuing and executing one id. -/
def execKey (rs : List (Int × TaskWrapper)) (id : Int) : List (Int × TaskWrapper) :=
  match lookupAssoc rs id with
  | none => rs
  | some t =>
    match t.execute with
    | .ok u => insertAssoc rs id u
    | .error _ => rs

theorem lookupAssoc_insert_self (rs : List (Int × TaskWrapper)) (k : Int)
    (t : TaskWrapper) : lookupAssoc (insertAssoc rs k t) k = some t := by
  induction rs with
  | nil => simp [insertAssoc, lookupAssoc]
  | cons p rest ih =>
    by_cases h : p.1 = k
    · simp [insertAssoc, h, lookupAssoc]
    · simpa [insertAssoc, h, lookupAssoc] using ih

theorem lookupAssoc_insert_ne (rs : List (Int × TaskWrapper)) (k k2 : Int)
    (t : TaskWrapper) (h : k2 ≠ k) :
    lookupAssoc (insertAssoc rs k t) k2 = lookupAssoc rs k2 := by
  induction rs with
  | nil => simp [insertAssoc, lookupAssoc, h, Ne.symm h]
  | cons p rest ih =>
    by_cases hp : p.1 = k
    · subst hp
      simp [insertAssoc, lookupAssoc, h, Ne.symm h]
    · by_cases hp2 : p.1 = k2
      · simp [insertAssoc, hp, lookupAssoc, hp2, h, Ne.symm h]
      · simpa [insertAssoc, hp, lookupAssoc, hp2] using ih

theorem lookupAssoc_erase_self (rs : List (Int × TaskWrapper)) (k : Int) :
    lookupAssoc (eraseAssoc rs k) k = none := by
  induction rs with
  | nil => simp [eraseAssoc, lookupAssoc]
  | cons p rest ih =>
    simp only [eraseAssoc, List.filter_cons] at ih ⊢
    by_cases h : p.1 = k
    · simpa [h] using ih
    · simpa [h, bne_iff_ne, lookupAssoc] using ih

theorem execKey_lookup_ne (rs : List (Int × TaskWrapper)) (k id : Int) (h : id ≠ k) :
    lookupAssoc (execKey rs k) id = lookupAssoc rs id := by
  unfold execKey
  split
  · rfl
  · split
    · exact lookupAssoc_insert_ne rs k id _ h
    · rfl

theorem execKey_lookup_self (rs : List (Int × TaskWrapper)) (id : Int)
    (t : TaskWrapper) (v : DynVal) (hl : lookupAssoc rs id = some t)
    (hv : t.compute () = .ok v) :
    lookupAssoc (execKey rs id) id = some { t with result := some v, ready := true } := by
  simp only [execKey, hl, TaskWrapper.execute, hv]
  exact lookupAssoc_insert_self ..

theorem lookup_foldl_execKey_done (q : List Int) :
    ∀ (rs : List (Int × TaskWrapper)) (id : Int) (t : TaskWrapper) (v : DynVal),
    lookupAssoc rs id = some t → t.compute () = .ok v → t.result = some v →
    t.ready = true → lookupAssoc (q.foldl execKey rs) id = some t := by
  induction q with
  | nil => intro rs id t v hl _ _ _; simpa using hl
  | cons k q ih =>
    intro rs id t v hl hc hr hready
    by_cases hk : id = k
    · subst hk
      have hstep := execKey_lookup_self rs id t v hl hc
      have hte : { t with result := some v, ready := true } = t := by
        cases t
        simp only at hr hready
        simp [hr, hready]
      rw [hte] at hstep
      exact ih (execKey rs id) id t v hstep hc hr hready
    · have hstep : lookupAssoc (execKey rs k) id = some t := by
        rw [execKey_lookup_ne rs k id hk]; exact hl
      exact ih (execKey rs k) id t v hstep hc hr hready

theorem lookup_foldl_execKey_mem (q : List Int) :
    ∀ (rs : List (Int × TaskWrapper)) (id : Int) (t : TaskWrapper) (v : DynVal),
    lookupAssoc rs id = some t → t.compute () = .ok v → id ∈ q →
    lookupAssoc (q.foldl execKey rs) id =
      some { t with result := some v, ready := true } := by
  induction q with
  | nil => intro rs id t v _ _ hmem; cases hmem
  | cons k q ih =>
    intro rs id t v hl hc hmem
    by_cases hk : id = k
    · subst hk
      have hstep := execKey_lookup_self rs id t v hl hc
      exact lookup_foldl_execKey_done q (execKey rs id) id _ v hstep hc rfl rfl
    · have hstep : lookupAssoc (execKey rs k) id = some t := by
        rw [execKey_lookup_ne rs k id hk]; exact hl
      have hmem2 : id ∈ q := by
        cases hmem with
        | head => exact absurd rfl hk
        | tail _ h => exact h
      exact ih (execKey rs k) id t v hstep hc hmem2

theorem worker_run_succ (fuel : Nat) (s : EngineState) :
    worker_run (fuel + 1) s =
      match worker_step s with
      | .stopped s1 => ([], .stopped s1)
      | .idle s1 => ([], .idle s1)
      | .crashed e s1 => ([], .crashed e s1)
      | .ran id s1 => (id :: (worker_run fuel s1).1, (worker_run fuel s1).2) := rfl

/-- Running the worker with one spare iteration on a stop-free state whose queued ids
all resolve to normally returning tasks: every queued id is dequeued and executed in
queue order, after which the worker parks idle on the emptied queue; the final
registry is the fold of the per-task execution effect over the dequeued ids. -/
theorem worker_run_exec_aux (l : List Int) :
    ∀ s : EngineState, s.tasks = l → s.stopRequested = false → QueueOk s →
    worker_run (l.length + 1) s =
      (l, RunOut.idle { s with tasks := [], results := l.foldl execKey s.results }) := by
  induction l with
  | nil =>
    intro s h hst _
    obtain ⟨ts, rs, c, st, rn⟩ := s
    simp only at h hst
    subst h; subst hst
    simp [worker_run, worker_step]
  | cons id rest ih =>
    intro s h hst hq
    obtain ⟨t, hlt, v, hv⟩ := hq id (by rw [h]; exact List.mem_cons_self id rest)
    have hstep : worker_step s = .ran id { s with tasks := rest, results := insertAssoc s.results id { t with result := some v, ready := true } } := by
      simp [worker_step, hst, h, hlt, TaskWrapper.execute, hv]
    have hq2 : QueueOk { s with tasks := rest, results := insertAssoc s.results id { t with result := some v, ready := true } } := by
      intro id2 h2
      simp only at h2
      by_cases hk : id2 = id
      · subst hk
        refine ⟨{ t with result := some v, ready := true }, ?_, v, hv⟩
        simpa using lookupAssoc_insert_self s.results id2 _
      · obtain ⟨t2, hlt2, v2, hv2⟩ := hq id2 (by rw [h]; exact List.mem_cons_of_mem id h2)
        refine ⟨t2, ?_, v2, hv2⟩
        simpa using (lookupAssoc_insert_ne s.results id id2 _ hk).trans hlt2
    have hrec := ih _ rfl (by simpa using hst) hq2
    have hfold : execKey s.results id =
        insertAssoc s.results id { t with result := some v, ready := true } := by
      simp only [execKey, hlt, TaskWrapper.execute, hv]
    simp only [List.length_cons]
    rw [worker_run_succ, hstep]
    simp only [hrec]
    simp [List.foldl_cons, hfold]

/-- add_task preserves QueueOk when the new callable returns normally. -/
theorem add_task_queueOk (f : Unit → CallResult) (s : EngineState) (hq : QueueOk s)
    (hok : ∃ v, f () = CallResult.ok v) : QueueOk (add_task f s).2 := by
  intro id h
  simp only [add_task, List.mem_append, List.mem_singleton] at h
  cases h with
  | inl hold =>
    obtain ⟨t, hlt, v, hv⟩ := hq id hold
    by_cases hk : id = taskIdOf s.count
    · subst hk
      refine ⟨{ compute := f }, ?_, hok⟩
      simp only [add_task]
      exact lookupAssoc_insert_self s.results (taskIdOf s.count) _
    · refine ⟨t, ?_, v, hv⟩
      simp only [add_task]
      exact (lookupAssoc_insert_ne s.results (taskIdOf s.count) id _ hk).trans hlt
  | inr hnew =>
    subst hnew
    refine ⟨{ compute := f }, ?_, hok⟩
    simp only [add_task]
    exact lookupAssoc_insert_self s.results (taskIdOf s.count) _

theorem submitAll_tasks (fs : List (Unit → CallResult)) :
    ∀ s : EngineState, (submitAll fs s).2.tasks = s.tasks ++ (submitAll fs s).1 := by
  induction fs with
  | nil => intro s; simp [submitAll]
  | cons f fs ih =>
    intro s
    simp only [submitAll]
    rw [ih]
    simp [add_task]

theorem submitAll_stop (fs : List (Unit → CallResult)) :
    ∀ s : EngineState, (submitAll fs s).2.stopRequested = s.stopRequested := by
  induction fs with
  | nil => intro s; simp [submitAll]
  | cons f fs ih =>
    intro s
    simp only [submitAll]
    rw [ih]
    simp [add_task]

theorem submitAll_queueOk (fs : List (Unit → CallResult))
    (hok : ∀ f ∈ fs, ∃ v, f () = CallResult.ok v) :
    ∀ s : EngineState, QueueOk s → QueueOk (submitAll fs s).2 := by
  induction fs with
  | nil => intro s hq; simpa [submitAll] using hq
  | cons f fs ih =>
    intro s hq
    simp only [submitAll]
    exact ih (fun g hg => hok g (List.mem_cons_of_mem f hg)) _
      (add_task_queueOk f s hq (hok f (List.mem_cons_self f fs)))

/-- The ids returned by a batch of submissions are the consecutive values of the
wrapping counter, starting at the current allocation count. -/
theorem submitAll_ids (fs : List (Unit → CallResult)) :
    ∀ s : EngineState,
    (submitAll fs s).1 = (List.range fs.length).map (fun i => taskIdOf (s.count + i)) := by
  induction fs with
  | nil => intro s; simp [submitAll]
  | cons f fs ih =>
    intro s
    simp only [submitAll, List.length_cons, List.range_succ_eq_map, List.map_cons,
      List.map_map]
    congr 1
    rw [ih]
    simp only [add_task, Function.comp_def]
    congr 1
    funext i
    congr 1
    omega

theorem taskIdOf_strict_mono (i j : Nat) (hij : i < j) (hj : j < 2 ^ 31) :
    taskIdOf i < taskIdOf j := by
  unfold taskIdOf toSigned32
  rw [Nat.mod_eq_of_lt (by omega), Nat.mod_eq_of_lt (by omega)]
  rw [if_pos (by omega), if_pos (by omega)]
  omega

theorem taskIdOf_ne (i j : Nat) (hij : i < j) (hj : j < 2 ^ 32) :
    taskIdOf i ≠ taskIdOf j := by
  unfold taskIdOf toSigned32
  rw [Nat.mod_eq_of_lt (by omega), Nat.mod_eq_of_lt hj]
  split <;> split <;> omega

/-- f_smthlse from the source, instantiated at int: a * b + c. -/
def f_smthlse (a b c : Int) : Int :=
  a * b + c

/-- f_sq from the source, instantiated at int: x * x. -/
def f_sq (x : Int) : Int :=
  x * x

/-- A pure callable producing the int n, as captured by add_task. -/
def pureInt (n : Int) : Unit → CallResult :=
  fun _ => CallResult.ok ⟨.tInt, n⟩

/-- A callable that raises an exception when invoked. -/
def throwing (msg : String) : Unit → CallResult :=
  fun _ => CallResult.exn msg

/-- Engine state after starting the server and submitting one pure int task. -/
def oneTaskState : EngineState :=
  (add_task (pureInt 5) (start initState).1).2

/-- oneTaskState after the worker has dequeued and executed the task. -/
def oneTaskDoneState : EngineState :=
  match worker_step oneTaskState with
  | .ran _ s1 => s1
  | .stopped s1 => s1
  | .idle s1 => s1
  | .crashed _ s1 => s1

/-- Engine state after starting the server and submitting one throwing task. -/
def throwTaskState : EngineState :=
  (add_task (throwing "boom") (start initState).1).2

end ServerClient

namespace MatrixVector

variable {α : Type} [Zero α] [Add α] [Mul α]

/-- The shared inner loop of both products: c[i] = 0.0; then for j in [0, n):
c[i] += a[i * n + j] * b[j]. Matrices and vectors are index functions; the fold
performs the additions in the same order as the C loop. -/
def rowVal (a b : Nat → α) (n i : Nat) : α :=
  (List.range n).foldl (fun acc j => acc + a (i * n + j) * b j) 0

/-- matrix_vector_product: for i in [0, m), write the row value into c[i]. -/
def matrix_vector_product (a b : Nat → α) (c : Nat → α) (m n : Nat) : Nat → α :=
  (List.range m).foldl (fun cc i => Function.update cc i (rowVal a b n i)) c

/-- Truncation of a value to a 32-bit signed int, two's complement: the unique
representative in [-2^31, 2^31) congruent mod 2^32. In matrix_vector_product_omp the
variables items_per_thread, lb and ub are C ints while m is a size_t, so every
assignment of a size_t value to them and every int arithmetic result truncates. -/
def wrap32 (z : Int) : Int :=
  (z + 2 ^ 31) % 2 ^ 32 - 2 ^ 31

/-- The bounds computed by matrix_vector_product_omp, with the int truncation of the
source: int items_per_thread = m / nthreads (size_t division, result truncated to
int); int lb = threadid * items_per_thread (int product);
int ub = (threadid == nthreads - 1) ? m - 1 : lb + items_per_thread - 1, where
m - 1 is computed in size_t and truncated to int (for every m this equals
wrap32 (m - 1) over the integers, also at m = 0 where size_t wraps to 2^64 - 1,
since wrap32 is periodic mod 2^32). ub is -1 when items_per_thread = 0 on a
non-last thread, and the truncations make the bounds collapse for m ≥ 2^31. -/
def ompBounds (m k tid : Nat) : Int × Int :=
  let items_per_thread : Int := wrap32 ((m / k : Nat) : Int)
  let lb : Int := wrap32 ((tid : Int) * items_per_thread)
  let ub : Int :=
    if tid = k - 1 then wrap32 ((m : Int) - 1)
    else wrap32 (lb + items_per_thread - 1)
  (lb, ub)

/-- The row indices visited by the loop for (int i = lb; i <= ub; i++): the range of
length ub + 1 - lb starting at lb, empty when ub < lb. Whenever the call is reached
by the program (tid < k) and the bounds are representable without truncation
(m < 2^31), lb is non-negative and these are exactly the visited indices; a negative
lb (reachable only through truncated bounds, where the C loop would index the array
out of bounds) is clamped to 0. -/
def ompRows (m k tid : Nat) : List Nat :=
  List.range' (ompBounds m k tid).1.toNat
    ((ompBounds m k tid).2 + 1 - (ompBounds m k tid).1).toNat

/-- matrix_vector_product_omp for one threadid: writes the row value into c[i] for
each i in its row range. -/
def matrix_vector_product_omp (a b : Nat → α) (c : Nat → α) (m n k tid : Nat) :
    Nat → α :=
  (ompRows m k tid).foldl (fun cc i => Function.update cc i (rowVal a b n i)) c

/-- Running the k thread calls of run_parallel. The threads write disjoint rows, so
the parallel execution is modelled by composing the calls in thread order. -/
def runAllThreads (a b : Nat → α) (c : Nat → α) (m n k : Nat) : Nat → α :=
  (List.range k).foldl (fun cc tid => matrix_vector_product_omp a b cc m n k tid) c

theorem wrap32_eq_self (z : Int) (h1 : -(2 ^ 31) ≤ z) (h2 : z < 2 ^ 31) :
    wrap32 z = z := by
  unfold wrap32
  rw [Int.emod_eq_of_lt (by omega) (by omega)]
  omega

theorem wrap32_natCast (x : Nat) (hx : x < 2 ^ 31) : wrap32 (x : Int) = (x : Int) := by
  apply wrap32_eq_self
  · have hnn : (0 : Int) ≤ (x : Int) := Int.natCast_nonneg x
    omega
  · exact_mod_cast hx

theorem ompRows_not_last (m k tid : Nat) (hm : m < 2 ^ 31) (htid : tid < k)
    (h : ¬ tid = k - 1) :
    ompRows m k tid = List.range' (tid * (m / k)) (m / k) := by
  have hq : m / k ≤ m := Nat.div_le_self m k
  have hmul : tid * (m / k) + m / k ≤ m := by
    have h3 : k * (m / k) ≤ m := by
      rw [Nat.mul_comm]; exact Nat.div_mul_le_self m k
    have h1 : (tid + 1) * (m / k) ≤ k * (m / k) := Nat.mul_le_mul (by omega) le_rfl
    calc tid * (m / k) + m / k = (tid + 1) * (m / k) := by ring
    _ ≤ m := le_trans h1 h3
  simp only [ompRows, ompBounds, if_neg h]
  generalize hgq : m / k = q at hq hmul ⊢
  rw [wrap32_natCast q (by omega)]
  rw [show ((tid : Int) * (q : Int)) = ((tid * q : Nat) : Int) from by push_cast; ring]
  generalize hglb : tid * q = lbq at hmul ⊢
  rw [wrap32_natCast lbq (by omega)]
  rw [wrap32_eq_self ((lbq : Int) + (q : Int) - 1)
    (by have := Int.natCast_nonneg lbq; have := Int.natCast_nonneg q; omega)
    (by have h4 : ((lbq + q : Nat) : Int) ≤ (m : Int) := by exact_mod_cast hmul
        have h5 : (m : Int) < 2 ^ 31 := by exact_mod_cast hm
        push_cast at h4
        omega)]
  congr 1
  omega

theorem ompRows_last (m k : Nat) (hm : m < 2 ^ 31) :
    ompRows m k (k - 1) = List.range' ((k - 1) * (m / k)) (m - (k - 1) * (m / k)) := by
  have hq : m / k ≤ m := Nat.div_le_self m k
  have hle : (k - 1) * (m / k) ≤ m := by
    calc (k - 1) * (m / k) ≤ k * (m / k) := Nat.mul_le_mul (Nat.sub_le k 1) le_rfl
    _ = m / k * k := Nat.mul_comm ..
    _ ≤ m := Nat.div_mul_le_self m k
  simp only [ompRows, ompBounds]
  rw [if_pos trivial]
  generalize hgq : m / k = q at hq hle ⊢
  rw [wrap32_natCast q (by omega)]
  rw [show (((k - 1 : Nat) : Int) * (q : Int)) = (((k - 1) * q : Nat) : Int) from
    by push_cast; ring]
  generalize hglb : (k - 1) * q = lbq at hle ⊢
  rw [wrap32_natCast lbq (by omega)]
  rw [wrap32_eq_self ((m : Int) - 1)
    (by have := Int.natCast_nonneg m; omega)
    (by have h5 : (m : Int) < 2 ^ 31 := by exact_mod_cast hm
        omega)]
  congr 1
  omega

theorem flatMap_congr {α2 β2 : Type} (l : List α2) (f g : α2 → List β2)
    (h : ∀ x ∈ l, f x = g x) : l.flatMap f = l.flatMap g := by
  induction l with
  | nil => rfl
  | cons a l ih =>
    simp only [List.flatMap_cons]
    rw [h a (List.mem_cons_self a l), ih (fun x hx => h x (List.mem_cons_of_mem a hx))]

theorem flatMap_blocks (q j : Nat) :
    (List.range j).flatMap (fun tid => List.range' (tid * q) q) =
      List.range' 0 (j * q) := by
  induction j with
  | zero => simp
  | succ j ih =>
    rw [List.range_succ, List.flatMap_append, ih]
    simp only [List.flatMap_cons, List.flatMap_nil, List.append_nil]
    have happ := List.range'_append_1 0 (j * q) q
    rw [Nat.zero_add] at happ
    rw [happ, Nat.succ_mul, Nat.add_comm (j * q) q]

/-- The per-thread row ranges of matrix_vector_product_omp cover the row indices
0..m-1 when the row bounds fit in an int: their concatenation in thread order is
exactly the list of all rows. -/
theorem omp_rows_partition (m k : Nat) (hm : m < 2 ^ 31) (hk : 1 ≤ k) :
    (List.range k).flatMap (ompRows m k) = List.range m := by
  obtain ⟨k1, rfl⟩ : ∃ k1, k = k1 + 1 := ⟨k - 1, by omega⟩
  rw [List.range_succ, List.flatMap_append]
  rw [flatMap_congr (List.range k1) (ompRows m (k1 + 1)) _
    (fun x hx => ompRows_not_last m (k1 + 1) x hm
      (by have := List.mem_range.mp hx; omega)
      (by have := List.mem_range.mp hx; omega))]
  rw [flatMap_blocks]
  have h2 := ompRows_last m (k1 + 1) hm
  simp only [Nat.add_sub_cancel] at h2
  simp only [List.flatMap_cons, List.flatMap_nil, List.append_nil, h2]
  have hle : k1 * (m / (k1 + 1)) ≤ m := by
    calc k1 * (m / (k1 + 1)) ≤ (k1 + 1) * (m / (k1 + 1)) := Nat.mul_le_mul (by omega) le_rfl
    _ = m / (k1 + 1) * (k1 + 1) := Nat.mul_comm ..
    _ ≤ m := Nat.div_mul_le_self m (k1 + 1)
  have happ := List.range'_append_1 0 (k1 * (m / (k1 + 1))) (m - k1 * (m / (k1 + 1)))
  rw [Nat.zero_add] at happ
  rw [happ, Nat.sub_add_cancel hle, List.range_eq_range']

theorem foldl_flatMap {α2 β2 γ2 : Type} (l : List α2) (g : α2 → List β2)
    (f : γ2 → β2 → γ2) (c : γ2) :
    (l.flatMap g).foldl f c = l.foldl (fun cc x => (g x).foldl f cc) c := by
  induction l generalizing c with
  | nil => rfl
  | cons a l ih => simp [List.flatMap_cons, List.foldl_append, ih]

end MatrixVector

namespace ServerClient

theorem anyCast_mk (τ : TypeTag) (v : τ.interp) : anyCast τ ⟨τ, v⟩ = some v := by
  unfold anyCast
  rw [dif_pos rfl]

/-- Characterization of request_result: either it fails and returns the state
completely unchanged, or it succeeds and returns the state with exactly the entry of
the requested id erased. -/
theorem request_result_state (τ : TypeTag) (id : Int) (s : EngineState) :
    ((request_result τ id s).2 = s ∧
      ∀ x : τ.interp, (request_result τ id s).1 ≠ ReqResult.ok x) ∨
    (∃ x, (request_result τ id s).1 = ReqResult.ok x ∧
      (request_result τ id s).2 = { s with results := eraseAssoc s.results id }) := by
  cases hl : lookupAssoc s.results id with
  | none =>
    exact Or.inl ⟨by simp [request_result, hl], fun x => by simp [request_result, hl]⟩
  | some t =>
    cases hg : t.get_result with
    | none =>
      exact Or.inl ⟨by simp [request_result, hl, hg],
        fun x => by simp [request_result, hl, hg]⟩
    | some r =>
      cases r with
      | none =>
        exact Or.inl ⟨by simp [request_result, hl, hg],
          fun x => by simp [request_result, hl, hg]⟩
      | some v =>
        cases hc : anyCast τ v with
        | none =>
          exact Or.inl ⟨by simp [request_result, hl, hg, hc],
            fun x => by simp [request_result, hl, hg, hc]⟩
        | some x =>
          exact Or.inr ⟨x, by simp [request_result, hl, hg, hc],
            by simp [request_result, hl, hg, hc]⟩

/-- Claim C1: for every pure callable and fixed arguments captured at submission, a
task submitted with add_task and later retrieved with request_result at the matching
type yields the callable applied directly to those arguments: from any stop-free
state whose queued tasks return normally, the worker drains the queue and the
retrieval returns f x. -/
theorem await_matches_direct_call (s : EngineState) (hst : s.stopRequested = false)
    (hq : QueueOk s) (γ : Type) (τ : TypeTag) (f : γ → τ.interp) (x : γ) :
    ∃ s2 : EngineState,
      worker_run ((add_task (fun _ => CallResult.ok ⟨τ, f x⟩) s).2.tasks.length + 1)
          (add_task (fun _ => CallResult.ok ⟨τ, f x⟩) s).2 =
        ((add_task (fun _ => CallResult.ok ⟨τ, f x⟩) s).2.tasks, RunOut.idle s2) ∧
      (request_result τ (add_task (fun _ => CallResult.ok ⟨τ, f x⟩) s).1 s2).1 =
        ReqResult.ok (f x) := by
  have hst1 : (add_task (fun _ => CallResult.ok ⟨τ, f x⟩) s).2.stopRequested = false := by
    simpa [add_task] using hst
  have hq1 : QueueOk (add_task (fun _ => CallResult.ok ⟨τ, f x⟩) s).2 :=
    add_task_queueOk _ s hq ⟨⟨τ, f x⟩, rfl⟩
  have hrun := worker_run_exec_aux (add_task (fun _ => CallResult.ok ⟨τ, f x⟩) s).2.tasks
    (add_task (fun _ => CallResult.ok ⟨τ, f x⟩) s).2 rfl hst1 hq1
  refine ⟨_, hrun, ?_⟩
  have hl0 : lookupAssoc (add_task (fun _ => CallResult.ok ⟨τ, f x⟩) s).2.results
      (add_task (fun _ => CallResult.ok ⟨τ, f x⟩) s).1 =
      some { compute := fun _ => CallResult.ok ⟨τ, f x⟩ } := by
    simp only [add_task]
    exact lookupAssoc_insert_self ..
  have hmem : (add_task (fun _ => CallResult.ok ⟨τ, f x⟩) s).1 ∈
      (add_task (fun _ => CallResult.ok ⟨τ, f x⟩) s).2.tasks := by
    simp [add_task]
  have hdone := lookup_foldl_execKey_mem _ _ _ _ ⟨τ, f x⟩ hl0 rfl hmem
  simp [request_result, hdone, TaskWrapper.get_result, anyCast_mk]

/-- Witness for the C1 theorem: submitting combine(2,2,2) with combine(a,b,c)=a*b+c
and retrieving at int yields 6. -/
theorem await_matches_direct_call_witness :
    f_smthlse 2 2 2 = 6 ∧
    ∃ s2 : EngineState,
      worker_run
          ((add_task (fun _ => CallResult.ok ⟨.tInt, f_smthlse 2 2 2⟩) initState).2.tasks.length + 1)
          (add_task (fun _ => CallResult.ok ⟨.tInt, f_smthlse 2 2 2⟩) initState).2 =
        ((add_task (fun _ => CallResult.ok ⟨.tInt, f_smthlse 2 2 2⟩) initState).2.tasks,
          RunOut.idle s2) ∧
      (request_result .tInt
          (add_task (fun _ => CallResult.ok ⟨.tInt, f_smthlse 2 2 2⟩) initState).1 s2).1 =
        ReqResult.ok (f_smthlse 2 2 2) := by
  refine ⟨by decide, ?_⟩
  exact await_matches_direct_call initState rfl (fun id h => absurd h (by simp [initState]))
    (Int × Int × Int) .tInt (fun p => f_smthlse p.1 p.2.1 p.2.2) (2, 2, 2)

/-- Claim C2: tasks submitted sequentially by one thread are dequeued and executed by
the worker in exactly submission order: running the worker on the state left by the
submissions produces a dequeue-and-execute trace equal to the list of issued ids, in
order, with no reordering. -/
theorem worker_executes_in_submission_order (s : EngineState) (h0 : s.tasks = [])
    (hst : s.stopRequested = false) (fs : List (Unit → CallResult))
    (hok : ∀ f ∈ fs, ∃ v, f () = CallResult.ok v) :
    ∃ s2 : EngineState,
      worker_run ((submitAll fs s).1.length + 1) (submitAll fs s).2 =
        ((submitAll fs s).1, RunOut.idle s2) := by
  have hq0 : QueueOk s := by intro id h; rw [h0] at h; cases h
  have hq1 := submitAll_queueOk fs hok s hq0
  have ht := submitAll_tasks fs s
  rw [h0, List.nil_append] at ht
  have hst1 : (submitAll fs s).2.stopRequested = false := by
    rw [submitAll_stop]; exact hst
  exact ⟨_, worker_run_exec_aux (submitAll fs s).1 (submitAll fs s).2 ht hst1 hq1⟩

/-- Witness for the C2 theorem: two tasks submitted in order on a fresh running
engine are executed in submission order. -/
theorem worker_executes_in_submission_order_witness :
    ∃ s2 : EngineState,
      worker_run ((submitAll (List.replicate 2 (pureInt 7)) (start initState).1).1.length + 1)
          (submitAll (List.replicate 2 (pureInt 7)) (start initState).1).2 =
        ((submitAll (List.replicate 2 (pureInt 7)) (start initState).1).1, RunOut.idle s2) :=
  worker_executes_in_submission_order (start initState).1 rfl rfl
    (List.replicate 2 (pureInt 7))
    (fun f hf => by rw [List.eq_of_mem_replicate hf]; exact ⟨_, rfl⟩)

/-- Claim C3 (code evaluation): the code does NOT capture a failing callable. With a
throwing task submitted on a running engine, the next worker iteration ends crashed:
the exception leaves TaskWrapper::execute and the server_thread loop unhandled (so
the worker thread dies), the result slot is never written, and a later
request_result on that id blocks forever — there is no TaskFailed outcome. -/
theorem task_exception_escapes_worker :
    worker_run 1 throwTaskState =
      ([], RunOut.crashed "boom" { throwTaskState with tasks := [] }) ∧
    (request_result .tInt 0 { throwTaskState with tasks := [] }).1 = ReqResult.blocks ∧
    (lookupAssoc throwTaskState.results 0).map (fun t => t.ready) = some false :=
  ⟨rfl, rfl, rfl⟩

/-- Claim C4 is false on the code: a request_result call failing on a present entry
(bad_any_cast from a type mismatch) is thrown before the erase is reached, so the
failing entry is NOT removed from the Registry, unlike a successful retrieval which
does remove it. -/
theorem type_mismatch_entry_not_removed :
    (request_result .tBool 0 oneTaskDoneState).1 = ReqResult.typeMismatch ∧
    (request_result .tBool 0 oneTaskDoneState).2 = oneTaskDoneState ∧
    (lookupAssoc (request_result .tBool 0 oneTaskDoneState).2.results 0).isSome = true ∧
    lookupAssoc (request_result .tInt 0 oneTaskDoneState).2.results 0 = none :=
  ⟨rfl, rfl, rfl, rfl⟩

/-- Claim C4 amended: failures from request_result never corrupt Registry or Queue
state — a failing call returns the engine state completely unchanged — but the
failing entry is NOT removed; the entry is erased exactly on successful retrieval. -/
theorem failed_retrieval_leaves_state_unchanged (τ : TypeTag) (id : Int)
    (s : EngineState) :
    ((∀ x : τ.interp, (request_result τ id s).1 ≠ ReqResult.ok x) →
      (request_result τ id s).2 = s) ∧
    (∀ (x : τ.interp) (s2 : EngineState), request_result τ id s = (.ok x, s2) →
      lookupAssoc s2.results id = none) := by
  constructor
  · intro hfail
    rcases request_result_state τ id s with ⟨h2, _⟩ | ⟨x, hx, _⟩
    · exact h2
    · exact absurd hx (hfail x)
  · intro x s2 hx2
    rcases request_result_state τ id s with ⟨_, hne⟩ | ⟨x3, hx3, h2⟩
    · exact absurd (by rw [hx2]) (hne x)
    · have hsnd : (request_result τ id s).2 = s2 := by rw [hx2]
      rw [← hsnd, h2]
      simpa using lookupAssoc_erase_self s.results id

/-- Witness for the amended C4 theorem: the mismatching retrieval leaves the state
unchanged, and the successful one removes the entry. -/
theorem failed_retrieval_leaves_state_unchanged_witness :
    (request_result .tBool 0 oneTaskDoneState).2 = oneTaskDoneState ∧
    lookupAssoc (request_result .tInt 0 oneTaskDoneState).2.results 0 = none :=
  ⟨(failed_retrieval_leaves_state_unchanged .tBool 0 oneTaskDoneState).1
      (fun _x h => ReqResult.noConfusion h),
   (failed_retrieval_leaves_state_unchanged .tInt 0 oneTaskDoneState).2 5 _ rfl⟩

/-- Claim C5: request_result fails with TaskNotFound exactly when the id is absent
from the Registry (never issued, or already removed by a successful retrieval): the
failure is immediate rather than blocking, an id present in the Registry never
yields TaskNotFound, and after a successful retrieval a second call on the same id
fails with TaskNotFound. -/
theorem taskNotFound_iff_absent (τ : TypeTag) (id : Int) (s : EngineState) :
    ((request_result τ id s).1 = ReqResult.taskNotFound ↔
      lookupAssoc s.results id = none) ∧
    ∀ (τ2 : TypeTag) (x : τ.interp) (s2 : EngineState),
      request_result τ id s = (.ok x, s2) →
      (request_result τ2 id s2).1 = ReqResult.taskNotFound := by
  constructor
  · cases hl : lookupAssoc s.results id with
    | none => simp [request_result, hl]
    | some t =>
      cases hg : t.get_result with
      | none => simp [request_result, hl, hg]
      | some r =>
        cases r with
        | none => simp [request_result, hl, hg]
        | some v =>
          cases hc : anyCast τ v with
          | none => simp [request_result, hl, hg, hc]
          | some x => simp [request_result, hl, hg, hc]
  · intro τ2 x s2 hx2
    rcases request_result_state τ id s with ⟨_, hne⟩ | ⟨x3, hx3, h2⟩
    · exact absurd (by rw [hx2]) (hne x)
    · have hsnd : (request_result τ id s).2 = s2 := by rw [hx2]
      have hres : lookupAssoc s2.results id = none := by
        rw [← hsnd, h2]
        simpa using lookupAssoc_erase_self s.results id
      simp [request_result, hres]

/-- Witness for the C5 theorem: retrieving the same id twice fails the second time
with TaskNotFound. -/
theorem taskNotFound_iff_absent_witness :
    (request_result .tInt 0 (request_result .tInt 0 oneTaskDoneState).2).1 =
      ReqResult.taskNotFound :=
  (taskNotFound_iff_absent .tInt 0 oneTaskDoneState).2 .tInt 5 _ rfl

/-- Claim C6: request_result checks the dynamic type of the stored value: on a ready
task, requesting a type different from the stored dynamic type fails with the type
mismatch condition (bad_any_cast) instead of returning a value, and requesting the
matching type returns the stored value itself. -/
theorem request_result_checks_dynamic_type (s : EngineState) (id : Int)
    (t : TaskWrapper) (v : DynVal) (τ : TypeTag)
    (hl : lookupAssoc s.results id = some t) (hready : t.ready = true)
    (hres : t.result = some v) :
    (v.tag ≠ τ → (request_result τ id s).1 = ReqResult.typeMismatch) ∧
    ∀ h : v.tag = τ, (request_result τ id s).1 = ReqResult.ok (h ▸ v.val) := by
  have hg : t.get_result = some (some v) := by
    simp [TaskWrapper.get_result, hready, hres]
  constructor
  · intro hne
    have hc : anyCast τ v = none := by
      unfold anyCast
      rw [dif_neg hne]
    simp [request_result, hl, hg, hc]
  · intro h
    have hc : anyCast τ v = some (h ▸ v.val) := by
      unfold anyCast
      rw [dif_pos h]
    simp [request_result, hl, hg, hc]

/-- Witness for the C6 theorem: the stored int result is rejected at bool and
returned at int. -/
theorem request_result_checks_dynamic_type_witness :
    (request_result .tBool 0 oneTaskDoneState).1 = ReqResult.typeMismatch ∧
    (request_result .tInt 0 oneTaskDoneState).1 = ReqResult.ok 5 :=
  ⟨(request_result_checks_dynamic_type oneTaskDoneState 0
      { compute := pureInt 5, result := some ⟨.tInt, 5⟩, ready := true }
      ⟨.tInt, 5⟩ .tBool rfl rfl rfl).1 (by decide),
   (request_result_checks_dynamic_type oneTaskDoneState 0
      { compute := pureInt 5, result := some ⟨.tInt, 5⟩, ready := true }
      ⟨.tInt, 5⟩ .tInt rfl rfl rfl).2 rfl⟩

/-- Claim C7 is false on the code: Server::start performs no running check and never
reports an error; calling start a second time while the engine is running returns
with no AlreadyRunning error, the jthread move assignment silently replacing the
running worker. -/
theorem second_start_reports_no_error :
    (start initState).1.running = true ∧
    (start (start initState).1).2 = none ∧
    (start (start initState).1).1.running = true :=
  ⟨rfl, rfl, rfl⟩

/-- Claim C7 amended: a second start while the Engine is running reports no error at
all: start always returns without error and silently replaces the worker — the
jthread move assignment requests stop on and joins the old worker, then installs a
fresh one (running stays true, fresh unset stop token), leaving queue, registry and
counter untouched. -/
theorem start_silently_replaces_worker (s : EngineState) (_h : s.running = true) :
    (start s).2 = none ∧ (start s).1.running = true ∧
    (start s).1.stopRequested = false ∧ (start s).1.tasks = s.tasks ∧
    (start s).1.results = s.results ∧ (start s).1.count = s.count :=
  ⟨rfl, rfl, rfl, rfl, rfl, rfl⟩

/-- Witness for the amended C7 theorem, on an already running engine. -/
theorem start_silently_replaces_worker_witness :
    (start (start initState).1).2 = none ∧
    (start (start initState).1).1.running = true ∧
    (start (start initState).1).1.stopRequested = false ∧
    (start (start initState).1).1.tasks = (start initState).1.tasks ∧
    (start (start initState).1).1.results = (start initState).1.results ∧
    (start (start initState).1).1.count = (start initState).1.count :=
  start_silently_replaces_worker (start initState).1 rfl

/-- Claim C8: once stop is requested, the worker loop exits without executing any of
the still pending tasks: with any amount of fuel the dequeue-and-execute trace after
stop is empty, the loop reports stopped, and the queued ids are left in place,
permanently abandoned. -/
theorem stop_abandons_pending_tasks (s : EngineState) (h : s.running = true)
    (fuel : Nat) (hf : 1 ≤ fuel) :
    worker_run fuel (stop s) = ([], RunOut.stopped (stop s)) ∧
    (stop s).tasks = s.tasks := by
  have hreq : (stop s).stopRequested = true := by simp [stop, h]
  obtain ⟨f1, rfl⟩ : ∃ f1, fuel = f1 + 1 := ⟨fuel - 1, by omega⟩
  constructor
  · rw [worker_run_succ]
    simp [worker_step, hreq]
  · simp [stop, h]

/-- Witness for the C8 theorem: stopping with one task still queued executes
nothing and leaves the task queued. -/
theorem stop_abandons_pending_tasks_witness :
    worker_run 1 (stop oneTaskState) = ([], RunOut.stopped (stop oneTaskState)) ∧
    (stop oneTaskState).tasks = oneTaskState.tasks :=
  stop_abandons_pending_tasks oneTaskState rfl 1 (by decide)

/-- The ids returned by k submissions of a trivial pure task from the fresh state. -/
def idsOf (k : Nat) : List Int :=
  (submitAll (List.replicate k (pureInt 0)) initState).1

theorem idsOf_eq (k : Nat) : idsOf k = (List.range k).map taskIdOf := by
  unfold idsOf
  rw [submitAll_ids]
  simp [initState]

/-- Claim C9 is false on the code over a whole process lifetime: nextid is a 32-bit
atomic int whose fetch_add wraps. In one sequence of 2^32 + 1 submissions, the id of
submission number 2^31 - 1 is 2^31 - 1 but the next submission gets -2^31, so ids
are not monotonically increasing; and submission number 2^32 is issued id 0 again,
the same id as submission 0, so an id is issued twice. -/
theorem task_ids_wrap_around :
    (idsOf (2 ^ 32 + 1))[2 ^ 31 - 1]? = some ((2 : Int) ^ 31 - 1) ∧
    (idsOf (2 ^ 32 + 1))[2 ^ 31]? = some (-(2 : Int) ^ 31) ∧
    (idsOf (2 ^ 32 + 1))[0]? = some 0 ∧
    (idsOf (2 ^ 32 + 1))[2 ^ 32]? = some 0 := by
  rw [idsOf_eq]
  refine ⟨?_, ?_, ?_, ?_⟩ <;>
    rw [List.getElem?_map, List.getElem?_range (by norm_num)] <;>
    simp only [Option.map_some', Option.some.injEq] <;>
    decide

/-- Claim C9 amended: ids are assigned at submission time by the single wrapping
atomic counter, the i-th submission of a fresh engine returning taskIdOf i; over any
single batch the returned ids are pairwise distinct as long as at most 2^32 tasks
are submitted, and strictly increasing as long as at most 2^31 are. -/
theorem task_ids_unique_monotone_bounded (fs : List (Unit → CallResult))
    (s : EngineState) (hc : s.count = 0) (i j : Nat) (hij : i < j)
    (hj : j < fs.length) :
    (fs.length ≤ 2 ^ 32 → (submitAll fs s).1[i]? ≠ (submitAll fs s).1[j]?) ∧
    (fs.length ≤ 2 ^ 31 →
      ∃ a b : Int, (submitAll fs s).1[i]? = some a ∧
        (submitAll fs s).1[j]? = some b ∧ a < b) := by
  have hids := submitAll_ids fs s
  rw [hc] at hids
  have hi2 : (submitAll fs s).1[i]? = some (taskIdOf i) := by
    rw [hids, List.getElem?_map, List.getElem?_range (by omega)]
    simp
  have hj2 : (submitAll fs s).1[j]? = some (taskIdOf j) := by
    rw [hids, List.getElem?_map, List.getElem?_range hj]
    simp
  constructor
  · intro hlen
    rw [hi2, hj2]
    intro hcontr
    exact taskIdOf_ne i j hij (by omega) (Option.some.inj hcontr)
  · intro hlen
    exact ⟨_, _, hi2, hj2, taskIdOf_strict_mono i j hij (by omega)⟩

/-- Witness for the amended C9 theorem on a batch of three submissions. -/
theorem task_ids_unique_monotone_bounded_witness :
    ((submitAll (List.replicate 3 (pureInt 0)) initState).1[0]? ≠
      (submitAll (List.replicate 3 (pureInt 0)) initState).1[2]?) ∧
    ∃ a b : Int,
      (submitAll (List.replicate 3 (pureInt 0)) initState).1[0]? = some a ∧
      (submitAll (List.replicate 3 (pureInt 0)) initState).1[2]? = some b ∧ a < b := by
  have h := task_ids_unique_monotone_bounded (List.replicate 3 (pureInt 0)) initState
    rfl 0 2 (by norm_num) (by norm_num)
  exact ⟨h.1 (by norm_num), h.2 (by norm_num)⟩

end ServerClient

namespace MatrixVector

/-- Claim C10 as stated is false on the code: the loop bounds in
matrix_vector_product_omp are C ints while m is a size_t. At m = 2^32 with k = 1
the code truncates items_per_thread = (int) (2^32 / 1) to 0 and
ub = (int) (2^32 - 1) to -1, so the single thread's row range is empty: no row of
0..m-1 belongs to any threadid, and executing all k = 1 calls writes no entry of c —
row 0 keeps its initial value 0 instead of the row product 1, which the shared inner
loop would compute (the sequential reference is equally broken there: its int row
counter can never reach such an m). -/
theorem omp_breaks_at_large_m :
    ompRows (2 ^ 32) 1 0 = [] ∧
    (List.range 1).flatMap (ompRows (2 ^ 32) 1) ≠ List.range (2 ^ 32) ∧
    runAllThreads (fun _ => (1 : Int)) (fun _ => 1) (fun _ => 0) (2 ^ 32) 1 1 0 = 0 ∧
    rowVal (fun _ => (1 : Int)) (fun _ => 1) 1 0 = 1 := by
  have h0 : ompRows (2 ^ 32) 1 0 = [] := by decide
  refine ⟨h0, ?_, by decide, by decide⟩
  intro hcontr
  rw [show List.range 1 = [0] from rfl, List.flatMap_cons, List.flatMap_nil, h0,
    List.nil_append] at hcontr
  have hlen := congrArg List.length hcontr
  rw [List.length_nil, List.length_range] at hlen
  exact absurd hlen (by norm_num)

/-- Claim C10 amended: the row-bound variables of matrix_vector_product_omp (and the
row and column counters of both loops) are C ints, so the claim holds on the domain
where they represent their values, m < 2^31 and n < 2^31: there, for every m ≥ 1 and
k ≥ 1, the row ranges computed for threadid 0..k-1 partition the row indices
0..m-1 — their concatenation in thread order is exactly the list of all rows, so
each row belongs to exactly one threadid, including when m is not divisible by k or
k exceeds m — and executing all k calls produces exactly the same output vector as a
single call to matrix_vector_product, for any entry type and inputs. Beyond 2^31 the
int truncation empties the ranges (see the counterexample at m = 2^32). -/
theorem omp_partitions_and_matches_sequential (m n k : Nat) (_hm : 1 ≤ m)
    (hm2 : m < 2 ^ 31) (_hn : n < 2 ^ 31) (hk : 1 ≤ k) :
    (List.range k).flatMap (ompRows m k) = List.range m ∧
    ∀ (α : Type) [Zero α] [Add α] [Mul α] (a b c : Nat → α),
      runAllThreads a b c m n k = matrix_vector_product a b c m n := by
  refine ⟨omp_rows_partition m k hm2 hk, ?_⟩
  intro α iz ia im a b c
  have h := foldl_flatMap (List.range k) (ompRows m k)
    (fun cc i => Function.update cc i (rowVal a b n i)) c
  rw [omp_rows_partition m k hm2 hk] at h
  exact h.symm

/-- Witness for the amended C10 theorem at m = 5, n = 2, k = 3. -/
theorem omp_partitions_and_matches_sequential_witness :
    (List.range 3).flatMap (ompRows 5 3) = List.range 5 ∧
    ∀ (α : Type) [Zero α] [Add α] [Mul α] (a b c : Nat → α),
      runAllThreads a b c 5 2 3 = matrix_vector_product a b c 5 2 :=
  omp_partitions_and_matches_sequential 5 2 3 (by norm_num) (by norm_num)
    (by norm_num) (by norm_num)

end MatrixVector
